import Mathlib

/-!
Verification development for the `ai-dead-code` scanner (`src/index.js`).

The tool scans a file set, extracts export / function declarations
and import bindings with regular expressions, and classifies declarations as
unused.  We shallowly embed the relevant source functions over `List Char`
texts: each JavaScript regular expression is compiled by hand into a
matcher function, and the `g`-flag scanning loop (`regex.exec` /
`String.match`) is embedded as `scanAll`.  File paths are taken to be the
scan-root-relative paths (the source computes `path.relative(opts.dir, f)`
before the entry-point test; we keep paths relative throughout).
-/

namespace DeadCode

/-- JavaScript `\w` character class: `[A-Za-z0-9_]`. -/
def isWordChar (c : Char) : Bool :=
  c.isAlpha || c.isDigit || c = '_'

/-- JavaScript `\s` character class restricted to the ASCII whitespace
characters (space, tab, newline, carriage return, vertical tab, form feed). -/
def isJsSpace (c : Char) : Bool :=
  c = ' ' || c = '\t' || c = '\n' || c = '\r' || c = '\x0b' || c = '\x0c'

/-- Match a literal character sequence at the head of `s`, returning the rest. -/
def dropLit : List Char → List Char → Option (List Char)
  | [], s => some s
  | _ :: _, [] => none
  | c :: cs, d :: ds => if c = d then dropLit cs ds else none

/-- Greedy `\s+`: at least one whitespace character, consuming the maximal run. -/
def ws1 : List Char → Option (List Char)
  | [] => none
  | c :: rest => if isJsSpace c then some (rest.dropWhile isJsSpace) else none

/-- Greedy `\s*`: consume the maximal (possibly empty) whitespace run. -/
def ws0 (s : List Char) : List Char :=
  s.dropWhile isJsSpace

/-- Greedy `(\w+)`: at least one word character; returns the captured run
and the rest. -/
def word1 (s : List Char) : Option (List Char × List Char) :=
  match s.takeWhile isWordChar with
  | [] => none
  | w => some (w, s.dropWhile isWordChar)

/-- Match one literal character. -/
def expectChar (c : Char) : List Char → Option (List Char)
  | [] => none
  | d :: rest => if d = c then some rest else none

/-- Embedding of the `g`-flag scan loop: at each position try the matcher
(which also sees the reversed preceding text, for lookbehind and `\b`);
on a match of consumed length `n`, emit the capture and resume after the
match, otherwise advance one character.  `fuel ≥ text length` suffices. -/
def scanGAux (f : List Char → List Char → Option (α × Nat)) :
    Nat → List Char → List Char → List α
  | 0, _, _ => []
  | _ + 1, _, [] => []
  | fuel + 1, prev, c :: rest =>
    match f prev (c :: rest) with
    | none => scanGAux f fuel (c :: prev) rest
    | some (a, n) =>
      a :: scanGAux f fuel ((List.take (max n 1) (c :: rest)).reverse ++ prev)
        (List.drop (max n 1) (c :: rest))

/-- Run a `g`-flag scan over a whole text. -/
def scanAll (f : List Char → List Char → Option (α × Nat)) (text : List Char) :
    List α :=
  scanGAux f text.length [] text

/-- Lift a prev-independent matcher returning the remaining suffix into the
`(capture, consumed length)` form used by `scanAll`. -/
def noPrev (f : List Char → Option (α × List Char)) :
    List Char → List Char → Option (α × Nat) :=
  fun _ s => (f s).map fun p => (p.1, s.length - p.2.length)

/-- JavaScript `String.split(',')`. -/
def splitOnComma : List Char → List (List Char)
  | [] => [[]]
  | c :: rest =>
    match splitOnComma rest with
    | [] => [[c]]
    | p :: ps => if c = ',' then [] :: p :: ps else (c :: p) :: ps

/-- JavaScript `String.trim()` (over the ASCII whitespace set). -/
def trimLeft (s : List Char) : List Char := s.dropWhile isJsSpace

/-- Remove trailing whitespace. -/
def trimRight (s : List Char) : List Char := (s.reverse.dropWhile isJsSpace).reverse

/-- JavaScript `String.trim()`. -/
def trim (s : List Char) : List Char := trimRight (trimLeft s)

/-- Match the separator regex `\s+as\s+` at the start of `s`, returning the
text after the separator. -/
def splitAsSep (s : List Char) : Option (List Char) :=
  (ws1 s).bind fun r1 =>
    (dropLit "as".toList r1).bind fun r2 => ws1 r2

/-- Fueled worker for `String.split(/\s+as\s+/)`. -/
def splitAsAux : Nat → List Char → List Char → List (List Char)
  | _, acc, [] => [acc.reverse]
  | 0, acc, rest => [acc.reverse ++ rest]
  | fuel + 1, acc, c :: rest =>
    match splitAsSep (c :: rest) with
    | some r => acc.reverse :: splitAsAux fuel [] r
    | none => splitAsAux fuel (c :: acc) rest

/-- JavaScript `String.split(/\s+as\s+/)`. -/
def splitAs (s : List Char) : List (List Char) :=
  splitAsAux s.length [] s

/-- The `[0]` component of `String.split(/\s*:\s*/)`: everything before the
first colon, with the whitespace run adjacent to the colon stripped; the
whole string when it has no colon. -/
def colonHead (s : List Char) : List Char :=
  if s.contains ':' then trimRight (s.takeWhile (fun c => c != ':')) else s

/-- A declaration record of the scanner: `{ name, type, file }`, with
`type` one of `"named"`, `"default"`, `"function"`, `"arrow"`. -/
structure Decl where
  name : List Char
  type : String
  file : List Char
deriving DecidableEq, Repr

/-! ### Declaration extraction (`extractExports`, `extractFunctions`) -/

/-- The declaration-keyword alternation
`(?:const|let|var|function|class|async\s+function)` of the named-export
regex (the alternatives are mutually exclusive at any position). -/
def declKw (s : List Char) : Option (List Char) :=
  dropLit "const".toList s <|> dropLit "let".toList s <|> dropLit "var".toList s <|>
    dropLit "function".toList s <|> dropLit "class".toList s <|>
    ((dropLit "async".toList s).bind ws1).bind (dropLit "function".toList)

/-- Matcher for `export\s+(?:const|let|var|function|class|async\s+function)\s+(\w+)`. -/
def namedExportMatch (s : List Char) : Option (List Char × List Char) :=
  (dropLit "export".toList s).bind fun r1 =>
    (ws1 r1).bind fun r2 =>
      (declKw r2).bind fun r3 =>
        (ws1 r3).bind fun r4 => word1 r4

/-- Matcher for `export\s*\{([^}]+)\}`, capturing the brace contents. -/
def exportListMatch (s : List Char) : Option (List Char × List Char) :=
  (dropLit "export".toList s).bind fun r1 =>
    (expectChar '{' (ws0 r1)).bind fun r3 =>
      match r3.takeWhile (fun c => c != '}') with
      | [] => none
      | inner =>
        (expectChar '}' (r3.dropWhile (fun c => c != '}'))).map fun r4 => (inner, r4)

/-- The alternation `(?:function|class|async\s+function)` of the
default-export regex. -/
def defaultKw (s : List Char) : Option (List Char) :=
  dropLit "function".toList s <|> dropLit "class".toList s <|>
    ((dropLit "async".toList s).bind ws1).bind (dropLit "function".toList)

/-- Matcher for `export\s+default\s+(?:function|class|async\s+function)\s+(\w+)`. -/
def defaultNamedMatch (s : List Char) : Option (List Char × List Char) :=
  (dropLit "export".toList s).bind fun r1 =>
    (ws1 r1).bind fun r2 =>
      (dropLit "default".toList r2).bind fun r3 =>
        (ws1 r3).bind fun r4 =>
          (defaultKw r4).bind fun r5 =>
            (ws1 r5).bind fun r6 => word1 r6

/-- The processing of one export-list capture (source lines 59-66): split on
commas, trim, split on `\s+as\s+` and keep the first (pre-rename) part,
trim again, drop empty results.  (The not-default filter is applied at
the push site in `extractExports`.) -/
def exportListNames (inner : List Char) : List (List Char) :=
  ((splitOnComma inner).map fun n => trim ((splitAs (trim n)).headD [])).filter
    fun s => !s.isEmpty

/-- Embedding of `extractExports(content, filePath)`: the three regex scans
push their declarations in source order. -/
def extractExports (content : List Char) (filePath : List Char) : List Decl :=
  (scanAll (noPrev namedExportMatch) content).map
      (fun nm => { name := nm, type := "named", file := filePath })
    ++ (scanAll (noPrev exportListMatch) content).flatMap
      (fun inner => ((exportListNames inner).filter
          (fun nm => nm ≠ "default".toList)).map
        fun nm => { name := nm, type := "named", file := filePath })
    ++ (scanAll (noPrev defaultNamedMatch) content).map
      (fun nm => { name := nm, type := "default", file := filePath })

/-- The negative lookbehind `(?<!export\s+)`: the reversed preceding text
begins with at least one whitespace character followed by `export`
(reversed).  The variable-length lookbehind succeeds exactly when some
whitespace run of length ≥ 1 preceded by the literal `export` ends at the
current position, which - whitespace being contiguous - reduces to this test. -/
def exportBefore (prev : List Char) : Bool :=
  !(prev.takeWhile isJsSpace).isEmpty &&
    (dropLit ("export".toList.reverse) (prev.dropWhile isJsSpace)).isSome

/-- Matcher for `(?<!export\s+)function\s+(\w+)\s*\(`. -/
def funcMatch (prev s : List Char) : Option (List Char × List Char) :=
  if exportBefore prev then none
  else
    (dropLit "function".toList s).bind fun r1 =>
      (ws1 r1).bind fun r2 =>
        (word1 r2).bind fun p =>
          (expectChar '(' (ws0 p.2)).map fun r4 => (p.1, r4)

/-- The variable-keyword alternation `(?:const|let|var)\s+` shared by the
arrow-function and require regexes. -/
def varKw (s : List Char) : Option (List Char) :=
  (dropLit "const".toList s <|> dropLit "let".toList s <|>
    dropLit "var".toList s).bind ws1

/-- The shared head `(?:const|let|var)\s+(\w+)` of the arrow-function
regexes, capturing the bound variable. -/
def arrowHead (s : List Char) : Option (List Char × List Char) :=
  (varKw s).bind word1

/-- Matcher for `(?:const|let|var)\s+(\w+)\s*=\s*(?:async\s*)?\([^)]*\)\s*=>`. -/
def arrowMatch (s : List Char) : Option (List Char × List Char) :=
  (arrowHead s).bind fun p =>
    (expectChar '=' (ws0 p.2)).bind fun r3 =>
      (((dropLit "async".toList (ws0 r3)).bind fun ra => expectChar '(' (ws0 ra)) <|>
          expectChar '(' (ws0 r3)).bind fun r5 =>
        (expectChar ')' (r5.dropWhile (fun c => c != ')'))).bind fun r6 =>
          (dropLit "=>".toList (ws0 r6)).map fun r7 => (p.1, r7)

/-- Matcher for `(?:const|let|var)\s+(\w+)\s*=\s*(?:async\s*)?\w+\s*=>`
(the single-bare-parameter arrow form). -/
def arrowSimpleMatch (s : List Char) : Option (List Char × List Char) :=
  (arrowHead s).bind fun p =>
    (expectChar '=' (ws0 p.2)).bind fun r3 =>
      (((dropLit "async".toList (ws0 r3)).bind fun ra =>
          (word1 (ws0 ra)).bind fun q => dropLit "=>".toList (ws0 q.2)) <|>
        (word1 (ws0 r3)).bind fun q => dropLit "=>".toList (ws0 q.2)).bind fun r5 =>
        some (p.1, r5)

/-- Embedding of `extractFunctions(content, filePath)`: plain functions, then
the two arrow-function scans, in source order. -/
def extractFunctions (content : List Char) (filePath : List Char) : List Decl :=
  (scanAll (fun prev s => (funcMatch prev s).map fun p => (p.1, s.length - p.2.length))
      content).map (fun nm => { name := nm, type := "function", file := filePath })
    ++ (scanAll (noPrev arrowMatch) content).map
      (fun nm => { name := nm, type := "arrow", file := filePath })
    ++ (scanAll (noPrev arrowSimpleMatch) content).map
      (fun nm => { name := nm, type := "arrow", file := filePath })

/-! ### Import extraction (`findImports`) -/

/-- Matcher for `import\s*\{([^}]+)\}\s*from`, capturing the brace contents. -/
def namedImportMatch (s : List Char) : Option (List Char × List Char) :=
  (dropLit "import".toList s).bind fun r1 =>
    (expectChar '{' (ws0 r1)).bind fun r2 =>
      match r2.takeWhile (fun c => c != '}') with
      | [] => none
      | inner =>
        (expectChar '}' (r2.dropWhile (fun c => c != '}'))).bind fun r3 =>
          (dropLit "from".toList (ws0 r3)).map fun r4 => (inner, r4)

/-- Matcher for `import\s+(\w+)\s+from`. -/
def defaultImportMatch (s : List Char) : Option (List Char × List Char) :=
  (dropLit "import".toList s).bind fun r1 =>
    (ws1 r1).bind fun r2 =>
      (word1 r2).bind fun p =>
        (ws1 p.2).bind fun r4 =>
          (dropLit "from".toList r4).map fun r5 => (p.1, r5)

/-- Matcher for `import\s+\*\s+as\s+(\w+)\s+from`. -/
def namespaceImportMatch (s : List Char) : Option (List Char × List Char) :=
  (dropLit "import".toList s).bind fun r1 =>
    (ws1 r1).bind fun r2 =>
      (expectChar '*' r2).bind fun r3 =>
        (ws1 r3).bind fun r4 =>
          (dropLit "as".toList r4).bind fun r5 =>
            (ws1 r5).bind fun r6 =>
              (word1 r6).bind fun p =>
                (ws1 p.2).bind fun r8 =>
                  (dropLit "from".toList r8).map fun r9 => (p.1, r9)

/-- The tail `\s*=\s*require\(` of the require regex. -/
def requireTail (s : List Char) : Option (List Char) :=
  (expectChar '=' (ws0 s)).bind fun r1 =>
    (dropLit "require".toList (ws0 r1)).bind fun r2 =>
      expectChar '(' r2

/-- Matcher for `(?:const|let|var)\s+(?:\{([^}]+)\}|(\w+))\s*=\s*require\(`;
`Sum.inl` carries a destructuring capture, `Sum.inr` a plain binding. -/
def requireMatch (s : List Char) : Option ((List Char ⊕ List Char) × List Char) :=
  (varKw s).bind fun r1 =>
    ((expectChar '{' r1).bind fun r2 =>
      match r2.takeWhile (fun c => c != '}') with
      | [] => none
      | inner =>
        (expectChar '}' (r2.dropWhile (fun c => c != '}'))).bind fun r3 =>
          (requireTail r3).map fun r4 => (Sum.inl inner, r4)) <|>
    ((word1 r1).bind fun p =>
      (requireTail p.2).map fun r3 => (Sum.inr p.1, r3))

/-- Processing of one named-import capture (source lines 124-131): split on
commas, trim, split on `\s+as\s+` and keep the LAST (post-rename, local
alias) part, trim, drop empties. -/
def importListNames (inner : List Char) : List (List Char) :=
  ((splitOnComma inner).map fun n => trim ((splitAs (trim n)).getLastD [])).filter
    fun s => !s.isEmpty

/-- Processing of one destructured-require capture (source line 151): split
on commas, trim, keep the part before any `\s*:\s*` rename, drop empties. -/
def requireListNames (inner : List Char) : List (List Char) :=
  ((splitOnComma inner).map fun n => colonHead (trim n)).filter fun s => !s.isEmpty

/-- Embedding of `findImports(content)`.  The source accumulates a `Set` and
only ever queries membership, so a list with possible duplicates is an
adequate model; the four scans run in source order. -/
def findImports (content : List Char) : List (List Char) :=
  (scanAll (noPrev namedImportMatch) content).flatMap importListNames
    ++ scanAll (noPrev defaultImportMatch) content
    ++ scanAll (noPrev namespaceImportMatch) content
    ++ (scanAll (noPrev requireMatch) content).flatMap
      (fun x => match x with
        | Sum.inl inner => requireListNames inner
        | Sum.inr nm => [nm])

/-! ### Classification (`main`, source lines 162-257) and the report model -/

/-- One pattern character of the interpolated name, read as the regular
expression it becomes inside ``new RegExp(`\b${name}\b`)``: `.` matches any
character except a line terminator, any other character matches itself.
Names are raw export-list text, so they need not be identifiers.  (Names
containing other regex metacharacters - quantifiers, groups, classes,
alternation, possibly invalid patterns on which the program would throw -
are outside this embedding; every theorem below instantiates names made of
word characters and dots only, where this reading is exact.) -/
def patCharMatch (p c : Char) : Bool :=
  if p = '.' then !(c = '\n' || c = '\r' || c = '\u2028' || c = '\u2029')
  else p = c

/-- Match the interpolated name against the head of the text, one pattern
character per text character, returning the rest. -/
def dropPat : List Char → List Char → Option (List Char)
  | [], s => some s
  | _ :: _, [] => none
  | p :: ps, c :: cs => if patCharMatch p c then dropPat ps cs else none

/-- Word-character status of an optional character; the ends of the input
count as non-word. -/
def wordAt : Option Char → Bool
  | some c => isWordChar c
  | none => false

/-- JavaScript `\b`: the two sides of the position differ in word-character
status. -/
def boundaryB (prev next : Option Char) : Bool :=
  wordAt prev != wordAt next

/-- Matcher for ``new RegExp(`\b${name}\b`).test``: at each position, a word
boundary against the previous text character, the name read as a pattern
(one text character per pattern character), and a word boundary between the
last matched text character and the character after the match. -/
def testWordFrom (name : List Char) : Option Char → List Char → Bool
  | _, [] => false
  | prev, c :: rest =>
    (boundaryB prev (some c) &&
      (match dropPat name (c :: rest) with
        | some r =>
          boundaryB (List.getLast? (List.take name.length (c :: rest))) r.head?
        | none => false)) ||
      testWordFrom name (some c) rest

/-- Whole-word occurrence test ``new RegExp(`\b${name}\b`).test(content)``. -/
def testWord (name content : List Char) : Bool :=
  testWordFrom name none content

/-- Entry-point test `/index\.[jt]sx?$/` at a given position: the rest of
the path must be exactly `index.` followed by `j` or `t`, `s`, and an
optional `x` (the `$` anchor forces it to reach the end). -/
def matchIndexAt (s : List Char) : Bool :=
  match dropLit "index.".toList s with
  | some (c :: rest) => (c == 'j' || c == 't') && (rest == ['s'] || rest == ['s', 'x'])
  | _ => false

/-- Entry-point test `/main\.[jt]sx?$/` at a given position. -/
def matchMainAt (s : List Char) : Bool :=
  match dropLit "main.".toList s with
  | some (c :: rest) => (c == 'j' || c == 't') && (rest == ['s'] || rest == ['s', 'x'])
  | _ => false

/-- Entry-point test `/app\.[jt]sx?$/i` at a given position of the
lowercased path (ASCII case folding models the `i` flag). -/
def matchAppAt (s : List Char) : Bool :=
  match dropLit "app.".toList s with
  | some (c :: rest) => (c == 'j' || c == 't') && (rest == ['s'] || rest == ['s', 'x'])
  | _ => false

/-- Embedding of the entry-point exclusion (source lines 204-206):
`relPath.match(/index\.[jt]sx?$/) || relPath.match(/main\.[jt]sx?$/) ||
relPath.match(/app\.[jt]sx?$/i)`.  An unanchored `match` succeeds when the
pattern matches at any position, so we test every suffix. -/
def isEntryPoint (relPath : List Char) : Bool :=
  relPath.tails.any matchIndexAt || relPath.tails.any matchMainAt ||
    (relPath.map Char.toLower).tails.any matchAppAt

/-- A scanned file set: `(relative path, raw content)` pairs in scan order
(the contents of `fileContents`, paths pre-relativized). -/
abbrev FileSet := List (List Char × List Char)

/-- All export declarations collected in the first pass (the `allExports`
array). -/
def allExports (files : FileSet) : List Decl :=
  files.flatMap fun pc => extractExports pc.2 pc.1

/-- All function declarations collected in the first pass (the
`allFunctions` array); extraction is skipped under `--exports-only`. -/
def allFunctions (exportsOnly : Bool) (files : FileSet) : List Decl :=
  if exportsOnly then [] else files.flatMap fun pc => extractFunctions pc.2 pc.1

/-- The per-file usage contribution for one export in the second pass
(source lines 208-224): self file skipped; one count when the file import
set has the name; one more when `\bname\b` tests true on its text. -/
def usageShare (exp : Decl) (pc : List Char × List Char) : Nat :=
  if pc.1 = exp.file then 0
  else
    (if (findImports pc.2).contains exp.name then 1 else 0) +
      (if testWord exp.name pc.2 then 1 else 0)

/-- `totalUsages` for one export: the sum accumulated over the file map. -/
def countUsages (exp : Decl) (files : FileSet) : Nat :=
  (files.map (usageShare exp)).sum

/-- The exports pass (source lines 199-230): every collected export that is
not entry-point-excluded and has zero cross-file usage. -/
def unusedExports (files : FileSet) : List Decl :=
  (allExports files).filter fun exp =>
    !isEntryPoint exp.file && countUsages exp files == 0

/-- Matcher for ``new RegExp(`\b${name}\s*\(`, 'g')`` for an identifier
name: word boundary, the name, optional whitespace, `(`. -/
def callMatch (name : List Char) (prev s : List Char) : Option (Unit × Nat) :=
  match prev with
  | c :: _ => if isWordChar c then none else callMatchCore name s
  | [] => callMatchCore name s
where
  /-- The `name\s*\(` part, returning the consumed length. -/
  callMatchCore (name s : List Char) : Option (Unit × Nat) := do
    let r1 ← dropLit name s
    let r2 ← expectChar '(' (ws0 r1)
    pure ((), s.length - r2.length)

/-- `content.match(rx).length` for the call-site regex (0 for a `null` match). -/
def countCallSites (name content : List Char) : Nat :=
  (scanAll (callMatch name) content).length

/-- Matcher for ``new RegExp(`[^\w]${name}[^\w(]`, 'g')``: one non-word
character, the name, one character that is neither a word character nor `(`. -/
def refMatch (name : List Char) (s : List Char) : Option (Unit × List Char) :=
  match s with
  | [] => none
  | c :: rest =>
    if isWordChar c then none
    else
      match dropLit name rest with
      | some (d :: r2) =>
        if !isWordChar d && d != '(' then some ((), r2) else none
      | _ => none

/-- `content.match(refRegex).length` for the reference regex. -/
def countRefs (name content : List Char) : Nat :=
  (scanAll (noPrev (refMatch name)) content).length

/-- The per-function body of the functions pass (source lines 234-256):
skip when the (name, file) pair is also exported; fetch the file content;
count call sites and subtract one for the definition; when that is ≤ 0 and
the reference scan finds nothing, the function is unused. -/
def funcIsUnused (func : Decl) (files : FileSet) (exps : List Decl) : Bool :=
  if exps.any (fun e => e.name == func.name && e.file == func.file) then false
  else
    match files.lookup func.file with
    | none => false
    | some content =>
      let n := countCallSites func.name content
      let usageCount : Int := if n == 0 then 0 else (n : Int) - 1
      if usageCount ≤ 0 then countRefs func.name content == 0 else false

/-- The functions pass (skipped entirely under `--exports-only`). -/
def unusedFunctions (exportsOnly : Bool) (files : FileSet) : List Decl :=
  if exportsOnly then []
  else (allFunctions exportsOnly files).filter fun f =>
    funcIsUnused f files (allExports files)

/-- The report model (source lines 338-355, minus the timestamp, which the
spec excludes from the Report Model): counts and the two ordered unused
lists, with the function fields `null` in exports-only mode. -/
structure Report where
  filesScanned : Nat
  totalExports : Nat
  totalFunctions : Option Nat
  unusedExportsList : List Decl
  unusedFunctionsList : Option (List Decl)
deriving DecidableEq, Repr

/-- One full scan run over an in-memory file set with the given
`--exports-only` flag. -/
def runScan (exportsOnly : Bool) (files : FileSet) : Report where
  filesScanned := files.length
  totalExports := (allExports files).length
  totalFunctions :=
    if exportsOnly then none else some (allFunctions exportsOnly files).length
  unusedExportsList := unusedExports files
  unusedFunctionsList :=
    if exportsOnly then none else some (unusedFunctions exportsOnly files)

/-- Specification-side reading of "the raw text contains a whole-word
occurrence of `name`": the name occurs with no word character directly on
either side. -/
def WholeWordOccurs (name text : List Char) : Prop :=
  ∃ pre suf, text = pre ++ name ++ suf ∧
    (∀ q c, pre = q ++ [c] → isWordChar c = false) ∧
    (∀ d q, suf = d :: q → isWordChar d = false)

/-- A nonempty identifier made of word characters (the shape of every name
the regexes capture with `(\w+)`). -/
def IdOk (s : List Char) : Prop :=
  s ≠ [] ∧ ∀ c ∈ s, isWordChar c = true

/-! ### Basic lemmas about the matcher combinators and the scan loop -/

theorem headDropWhileFalse {p : Char → Bool} :
    ∀ {l : List Char} {c : Char}, (l.dropWhile p).head? = some c → p c = false := by
  intro l
  induction l with
  | nil => intro c h; simp [List.dropWhile] at h
  | cons x xs ih =>
    intro c h
    rw [List.dropWhile_cons] at h
    by_cases hx : p x = true
    · rw [if_pos hx] at h; exact ih h
    · rw [if_neg hx] at h
      simp only [List.head?_cons, Option.some.injEq] at h
      rw [← h]
      simpa using hx

theorem dropLit_eq_some {lit : List Char} :
    ∀ {s r : List Char}, dropLit lit s = some r ↔ s = lit ++ r := by
  induction lit with
  | nil => intro s r; simp [dropLit]
  | cons c cs ih =>
    intro s r
    cases s with
    | nil => simp [dropLit]
    | cons d ds =>
      by_cases h : c = d
      · subst h
        simp [dropLit, ih]
      · simp only [dropLit, if_neg h, List.cons_append]
        constructor
        · intro h'; simp at h'
        · intro h'
          exact absurd ((List.cons_eq_cons.mp h').1.symm) h

theorem ws1_eq_some {s r : List Char} (h : ws1 s = some r) :
    ∃ w, s = w ++ r ∧ w ≠ [] ∧ (∀ c ∈ w, isJsSpace c = true) ∧
      (∀ c, r.head? = some c → isJsSpace c = false) := by
  cases s with
  | nil => simp [ws1] at h
  | cons c rest =>
    simp only [ws1] at h
    by_cases hc : isJsSpace c = true
    · rw [if_pos hc] at h
      simp only [Option.some.injEq] at h
      refine ⟨c :: rest.takeWhile isJsSpace, ?_, by simp, ?_, ?_⟩
      · rw [← h, List.cons_append, List.takeWhile_append_dropWhile]
      · intro x hx
        rcases List.mem_cons.mp hx with rfl | hx
        · exact hc
        · exact List.mem_takeWhile_imp hx
      · intro x hx
        rw [← h] at hx
        exact headDropWhileFalse hx
    · rw [if_neg hc] at h
      simp at h

theorem word1_eq_some {s nm r : List Char} (h : word1 s = some (nm, r)) :
    s = nm ++ r ∧ nm ≠ [] ∧ (∀ c ∈ nm, isWordChar c = true) ∧
      (∀ c, r.head? = some c → isWordChar c = false) := by
  simp only [word1] at h
  rcases heq : s.takeWhile isWordChar with _ | ⟨c, cs⟩
  · rw [heq] at h; simp at h
  · rw [heq] at h
    simp only [Option.some.injEq, Prod.mk.injEq] at h
    obtain ⟨h1, h2⟩ := h
    refine ⟨?_, ?_, ?_, ?_⟩
    · rw [← h1, ← h2, ← heq, List.takeWhile_append_dropWhile]
    · rw [← h1]; simp
    · intro x hx; rw [← h1, ← heq] at hx
      exact List.mem_takeWhile_imp hx
    · intro x hx
      rw [← h2] at hx
      exact headDropWhileFalse hx

theorem expectChar_eq_some {c : Char} {s r : List Char}
    (h : expectChar c s = some r) : s = c :: r := by
  cases s with
  | nil => simp [expectChar] at h
  | cons d ds =>
    simp only [expectChar] at h
    by_cases hd : d = c
    · subst hd
      simp at h
      rw [h]
    · rw [if_neg hd] at h; simp at h

theorem ws0_decompose (s : List Char) :
    ∃ w, s = w ++ ws0 s ∧ (∀ c ∈ w, isJsSpace c = true) := by
  refine ⟨s.takeWhile isJsSpace, ?_, ?_⟩
  · rw [ws0, List.takeWhile_append_dropWhile]
  · intro x hx; exact List.mem_takeWhile_imp hx

theorem scanGAux_succ_cons {α : Type} (f : List Char → List Char → Option (α × Nat))
    (fuel : Nat) (prev : List Char) (c : Char) (rest : List Char) :
    scanGAux f (fuel + 1) prev (c :: rest) =
      match f prev (c :: rest) with
      | none => scanGAux f fuel (c :: prev) rest
      | some (a, n) =>
        a :: scanGAux f fuel ((List.take (max n 1) (c :: rest)).reverse ++ prev)
          (List.drop (max n 1) (c :: rest)) := rfl

/-- Positions reported by the scan loop really carry a matcher success. -/
theorem scanGAux_mem {α : Type} {f : List Char → List Char → Option (α × Nat)} :
    ∀ {fuel : Nat} {prev text : List Char} {a : α},
      text.length ≤ fuel → a ∈ scanGAux f fuel prev text →
      ∃ pre suf n, text = pre ++ suf ∧ f (pre.reverse ++ prev) suf = some (a, n) := by
  intro fuel
  induction fuel with
  | zero => intro prev text a _ hmem; simp [scanGAux] at hmem
  | succ fuel ih =>
    intro prev text a hlen hmem
    cases text with
    | nil => simp [scanGAux] at hmem
    | cons c rest =>
      rw [scanGAux_succ_cons] at hmem
      rcases hf : f prev (c :: rest) with _ | ⟨b, n⟩
      · rw [hf] at hmem
        have hlen' : rest.length ≤ fuel := by
          simp at hlen; omega
        obtain ⟨pre, suf, m, hsplit, hmatch⟩ := ih hlen' hmem
        refine ⟨c :: pre, suf, m, by simp [hsplit], ?_⟩
        simpa [List.append_assoc] using hmatch
      · rw [hf] at hmem
        rcases List.mem_cons.mp hmem with rfl | hmem'
        · exact ⟨[], c :: rest, n, rfl, hf⟩
        · have hdlen : (List.drop (max n 1) (c :: rest)).length ≤ fuel := by
            rw [List.length_drop]
            simp at hlen ⊢
            omega
          obtain ⟨pre, suf, m, hsplit, hmatch⟩ := ih hdlen hmem'
          refine ⟨List.take (max n 1) (c :: rest) ++ pre, suf, m, ?_, ?_⟩
          · rw [List.append_assoc, ← hsplit, List.take_append_drop]
          · rw [List.reverse_append, List.append_assoc]
            exact hmatch

/-- When the scan loop finds nothing, the matcher fails at every position. -/
theorem scanGAux_nil {α : Type} {f : List Char → List Char → Option (α × Nat)} :
    ∀ {fuel : Nat} {prev text : List Char},
      text.length ≤ fuel → scanGAux f fuel prev text = [] →
      ∀ pre c suf, text = pre ++ c :: suf →
        ∀ (a : α) (n : Nat), f (pre.reverse ++ prev) (c :: suf) ≠ some (a, n) := by
  intro fuel
  induction fuel with
  | zero =>
    intro prev text hlen _ pre c suf hsplit
    subst hsplit
    simp at hlen
  | succ fuel ih =>
    intro prev text hlen hnil pre c suf hsplit
    subst hsplit
    cases pre with
    | nil =>
      intro a n hf
      simp only [List.reverse_nil, List.nil_append] at hf
      simp only [List.nil_append] at hnil
      rw [scanGAux_succ_cons, hf] at hnil
      simp at hnil
    | cons d pre' =>
      rw [List.cons_append, scanGAux_succ_cons] at hnil
      rcases hf : f prev (d :: (pre' ++ c :: suf)) with _ | ⟨b, n⟩
      · rw [hf] at hnil
        simp only at hnil
        have hlen' : (pre' ++ c :: suf).length ≤ fuel := by
          simp at hlen ⊢; omega
        have hrec := ih hlen' hnil pre' c suf rfl
        intro a m hm
        exact hrec a m (by simpa [List.append_assoc] using hm)
      · rw [hf] at hnil
        simp at hnil

/-- Membership in `scanAll` output yields a match at some position. -/
theorem scanAll_mem {α : Type} {f : List Char → List Char → Option (α × Nat)}
    {text : List Char} {a : α} (h : a ∈ scanAll f text) :
    ∃ pre suf n, text = pre ++ suf ∧ f pre.reverse suf = some (a, n) := by
  obtain ⟨pre, suf, n, hsplit, hmatch⟩ := scanGAux_mem (le_refl _) h
  exact ⟨pre, suf, n, hsplit, by simpa using hmatch⟩

/-- An empty `scanAll` output means the matcher fails at every position. -/
theorem scanAll_nil {α : Type} {f : List Char → List Char → Option (α × Nat)}
    {text : List Char} (h : scanAll f text = []) :
    ∀ pre c suf, text = pre ++ c :: suf →
      ∀ (a : α) (n : Nat), f pre.reverse (c :: suf) ≠ some (a, n) := by
  intro pre c suf hsplit a n hm
  exact scanGAux_nil (le_refl _) h pre c suf hsplit a n (by simpa using hm)

/-- A sum of naturals is zero exactly when every term is zero. -/
theorem natSumZero : ∀ {l : List Nat}, l.sum = 0 ↔ ∀ x ∈ l, x = 0 := by
  intro l
  induction l with
  | nil => simp
  | cons x xs ih =>
    simp only [List.sum_cons, List.mem_cons, Nat.add_eq_zero, ih]
    constructor
    · rintro ⟨h1, h2⟩ x hx
      rcases hx with rfl | hx
      · exact h1
      · exact h2 x hx
    · intro h
      exact ⟨h x (Or.inl rfl), fun y hy => h y (Or.inr hy)⟩

/-- Word characters are not JavaScript whitespace. -/
theorem wordNotSpace {c : Char} (h : isWordChar c = true) : isJsSpace c = false := by
  by_contra hs
  rw [Bool.not_eq_false] at hs
  simp only [isJsSpace, Bool.or_eq_true, decide_eq_true_eq] at hs
  rcases hs with ((((rfl | rfl) | rfl) | rfl) | rfl) | rfl <;> simp [isWordChar] at h

/-- Word characters are not dots. -/
theorem wordNeDot {c : Char} (h : isWordChar c = true) : c ≠ '.' := by
  intro hc
  subst hc
  simp [isWordChar] at h

/-- Over a name made of word characters the pattern matcher is the literal
matcher. -/
theorem dropPat_word {name : List Char} (hw : ∀ c ∈ name, isWordChar c = true) :
    ∀ {s r : List Char}, dropPat name s = some r ↔ s = name ++ r := by
  induction name with
  | nil => intro s r; simp [dropPat]
  | cons p ps ih =>
    intro s r
    have hpd : p ≠ '.' := wordNeDot (hw p (by simp))
    have hih : ∀ {s r : List Char}, dropPat ps s = some r ↔ s = ps ++ r :=
      ih (fun x hx => hw x (by simp [hx]))
    cases s with
    | nil => simp [dropPat]
    | cons d ds =>
      have hpc : patCharMatch p d = decide (p = d) := by
        simp [patCharMatch, if_neg hpd]
      simp only [dropPat, hpc, decide_eq_true_eq]
      by_cases h : p = d
      · subst h
        simp [hih]
      · simp only [if_neg h, List.cons_append]
        constructor
        · intro h2
          simp at h2
        · intro h2
          exact absurd ((List.cons_eq_cons.mp h2).1.symm) h

theorem boundaryB_word_right {prev : Option Char} {c : Char}
    (hc : isWordChar c = true) : boundaryB prev (some c) = !wordAt prev := by
  rcases Bool.eq_false_or_eq_true (wordAt prev) with h | h <;>
    simp [boundaryB, wordAt, hc, h]

theorem boundaryB_word_left {next : Option Char} {c : Char}
    (hc : isWordChar c = true) : boundaryB (some c) next = !wordAt next := by
  rcases Bool.eq_false_or_eq_true (wordAt next) with h | h <;>
    simp [boundaryB, wordAt, hc, h]

/-- The first text character of a pattern-match site of a word-character
name is that name, hence a word character. -/
theorem head_word_of_split {name r rest : List Char} {c : Char} (hn : name ≠ [])
    (hw : ∀ x ∈ name, isWordChar x = true) (hsplit : c :: rest = name ++ r) :
    isWordChar c = true := by
  cases name with
  | nil => exact absurd rfl hn
  | cons n0 name0 =>
    have hc : c = n0 := by
      have := congrArg List.head? hsplit
      simpa using this
    rw [hc]
    exact hw n0 (by simp)

/-- The whole-word test succeeds exactly when the name occurs literally with
a word boundary on both sides - for names made of word characters, where
the interpolated pattern is literal (`prev` carries the character preceding
`text`). -/
theorem testWordFrom_iff {name : List Char} (hn : name ≠ [])
    (hw : ∀ c ∈ name, isWordChar c = true) :
    ∀ (text : List Char) (prev : Option Char),
      testWordFrom name prev text = true ↔
        ∃ pre suf, text = pre ++ name ++ suf ∧
          (pre = [] → wordAt prev = false) ∧
          (∀ q c, pre = q ++ [c] → isWordChar c = false) ∧
          (∀ d q, suf = d :: q → isWordChar d = false) := by
  obtain ⟨nq, ne, hconc⟩ : ∃ nq ne, name = nq ++ [ne] := by
    rcases List.eq_nil_or_concat name with rfl | ⟨q, e, h⟩
    · exact absurd rfl hn
    · exact ⟨q, e, by simpa [List.concat_eq_append] using h⟩
  have hneword : isWordChar ne = true := hw ne (by rw [hconc]; simp)
  have hlastname : name.getLast? = some ne := by
    rw [hconc]
    simp [List.getLast?_append]
  intro text
  induction text with
  | nil =>
    intro prev
    simp only [testWordFrom, Bool.false_eq_true, false_iff]
    rintro ⟨pre, suf, habs, -⟩
    rw [List.append_assoc] at habs
    have h0 := List.append_eq_nil.mp habs.symm
    exact hn (List.append_eq_nil.mp h0.2).1
  | cons c rest ih =>
    intro prev
    simp only [testWordFrom, Bool.or_eq_true, Bool.and_eq_true]
    constructor
    · rintro (⟨hbnd, hmatch⟩ | hrec)
      · rcases hm : dropPat name (c :: rest) with _ | r
        · rw [hm] at hmatch
          simp at hmatch
        · rw [hm] at hmatch
          have hmatch2 : boundaryB
              (List.getLast? (List.take name.length (c :: rest))) r.head? =
              true := hmatch
          have hsplit : c :: rest = name ++ r := (dropPat_word hw).mp hm
          have hcword : isWordChar c = true := head_word_of_split hn hw hsplit
          rw [boundaryB_word_right hcword, Bool.not_eq_true'] at hbnd
          have htake : List.take name.length (c :: rest) = name := by
            rw [hsplit]
            exact List.take_left name r
          rw [htake, hlastname, boundaryB_word_left hneword,
            Bool.not_eq_true'] at hmatch2
          refine ⟨[], r, by simpa using hsplit, fun _ => hbnd, ?_, ?_⟩
          · intro q c₂ hq
            simp at hq
          · intro d q hdq
            rw [hdq] at hmatch2
            simpa [wordAt] using hmatch2
      · obtain ⟨pre, suf, hsp, hprevc, hL, hR⟩ := (ih (some c)).mp hrec
        refine ⟨c :: pre, suf, by simp [hsp], by simp, ?_, hR⟩
        intro q c₂ hq
        cases q with
        | nil =>
          simp only [List.nil_append, List.cons_eq_cons] at hq
          obtain ⟨hc, hpre⟩ := hq
          rw [← hc]
          simpa [wordAt] using hprevc hpre
        | cons q0 q1 =>
          simp only [List.cons_append, List.cons_eq_cons] at hq
          exact hL q1 c₂ hq.2
    · rintro ⟨pre, suf, hsp, hnil2, hL, hR⟩
      cases pre with
      | nil =>
        left
        simp only [List.nil_append] at hsp
        have hm : dropPat name (c :: rest) = some suf := (dropPat_word hw).mpr hsp
        have hcword : isWordChar c = true := head_word_of_split hn hw hsp
        constructor
        · rw [boundaryB_word_right hcword, Bool.not_eq_true']
          exact hnil2 rfl
        · rw [hm]
          show boundaryB
              (List.getLast? (List.take name.length (c :: rest))) suf.head? = true
          have htake : List.take name.length (c :: rest) = name := by
            rw [hsp]
            exact List.take_left name suf
          rw [htake, hlastname, boundaryB_word_left hneword, Bool.not_eq_true']
          cases suf with
          | nil => rfl
          | cons d q => simpa [wordAt] using hR d q rfl
      | cons p0 pre0 =>
        right
        apply (ih (some c)).mpr
        simp only [List.cons_append, List.cons_eq_cons] at hsp
        obtain ⟨hp0, hrest⟩ := hsp
        subst hp0
        refine ⟨pre0, suf, hrest, ?_, ?_, hR⟩
        · intro hpre0
          subst hpre0
          simpa [wordAt] using hL [] c rfl
        · intro q c₂ hq
          exact hL (c :: q) c₂ (by simp [hq])

theorem matchIndexAt_iff {t : List Char} :
    matchIndexAt t = true ↔
      t = "index.js".toList ∨ t = "index.ts".toList ∨
        t = "index.jsx".toList ∨ t = "index.tsx".toList := by
  constructor
  · intro h
    unfold matchIndexAt at h
    rcases hm : dropLit "index.".toList t with _ | ⟨_ | ⟨c, rest⟩⟩ <;> rw [hm] at h <;>
      simp only [Bool.and_eq_true, Bool.or_eq_true, beq_iff_eq] at h
    · exact absurd h (by simp)
    · exact absurd h (by simp)
    · have ht : t = "index.".toList ++ (c :: rest) := dropLit_eq_some.mp hm
      obtain ⟨hc, hr⟩ := h
      rcases hc with rfl | rfl <;> rcases hr with rfl | rfl <;> subst ht <;> simp
  · intro h
    rcases h with rfl | rfl | rfl | rfl <;> decide

theorem matchMainAt_iff {t : List Char} :
    matchMainAt t = true ↔
      t = "main.js".toList ∨ t = "main.ts".toList ∨
        t = "main.jsx".toList ∨ t = "main.tsx".toList := by
  constructor
  · intro h
    unfold matchMainAt at h
    rcases hm : dropLit "main.".toList t with _ | ⟨_ | ⟨c, rest⟩⟩ <;> rw [hm] at h <;>
      simp only [Bool.and_eq_true, Bool.or_eq_true, beq_iff_eq] at h
    · exact absurd h (by simp)
    · exact absurd h (by simp)
    · have ht : t = "main.".toList ++ (c :: rest) := dropLit_eq_some.mp hm
      obtain ⟨hc, hr⟩ := h
      rcases hc with rfl | rfl <;> rcases hr with rfl | rfl <;> subst ht <;> simp
  · intro h
    rcases h with rfl | rfl | rfl | rfl <;> decide

theorem matchAppAt_iff {t : List Char} :
    matchAppAt t = true ↔
      t = "app.js".toList ∨ t = "app.ts".toList ∨
        t = "app.jsx".toList ∨ t = "app.tsx".toList := by
  constructor
  · intro h
    unfold matchAppAt at h
    rcases hm : dropLit "app.".toList t with _ | ⟨_ | ⟨c, rest⟩⟩ <;> rw [hm] at h <;>
      simp only [Bool.and_eq_true, Bool.or_eq_true, beq_iff_eq] at h
    · exact absurd h (by simp)
    · exact absurd h (by simp)
    · have ht : t = "app.".toList ++ (c :: rest) := dropLit_eq_some.mp hm
      obtain ⟨hc, hr⟩ := h
      rcases hc with rfl | rfl <;> rcases hr with rfl | rfl <;> subst ht <;> simp
  · intro h
    rcases h with rfl | rfl | rfl | rfl <;> decide

/-- The entry-point test is a pure suffix test: `index.*` and `main.*`
case-sensitively on the path, `app.*` on the lowercased path. -/
theorem isEntryPoint_iff {p : List Char} :
    isEntryPoint p = true ↔
      ("index.js".toList <:+ p ∨ "index.ts".toList <:+ p ∨
          "index.jsx".toList <:+ p ∨ "index.tsx".toList <:+ p) ∨
        ("main.js".toList <:+ p ∨ "main.ts".toList <:+ p ∨
          "main.jsx".toList <:+ p ∨ "main.tsx".toList <:+ p) ∨
        ("app.js".toList <:+ p.map Char.toLower ∨
          "app.ts".toList <:+ p.map Char.toLower ∨
          "app.jsx".toList <:+ p.map Char.toLower ∨
          "app.tsx".toList <:+ p.map Char.toLower) := by
  unfold isEntryPoint
  simp only [Bool.or_eq_true, List.any_eq_true, List.mem_tails]
  constructor
  · rintro ((⟨t, hts, hm⟩ | ⟨t, hts, hm⟩) | ⟨t, hts, hm⟩)
    · rcases matchIndexAt_iff.mp hm with rfl | rfl | rfl | rfl
      · exact Or.inl (Or.inl hts)
      · exact Or.inl (Or.inr (Or.inl hts))
      · exact Or.inl (Or.inr (Or.inr (Or.inl hts)))
      · exact Or.inl (Or.inr (Or.inr (Or.inr hts)))
    · rcases matchMainAt_iff.mp hm with rfl | rfl | rfl | rfl
      · exact Or.inr (Or.inl (Or.inl hts))
      · exact Or.inr (Or.inl (Or.inr (Or.inl hts)))
      · exact Or.inr (Or.inl (Or.inr (Or.inr (Or.inl hts))))
      · exact Or.inr (Or.inl (Or.inr (Or.inr (Or.inr hts))))
    · rcases matchAppAt_iff.mp hm with rfl | rfl | rfl | rfl
      · exact Or.inr (Or.inr (Or.inl hts))
      · exact Or.inr (Or.inr (Or.inr (Or.inl hts)))
      · exact Or.inr (Or.inr (Or.inr (Or.inr (Or.inl hts))))
      · exact Or.inr (Or.inr (Or.inr (Or.inr (Or.inr hts))))
  · rintro ((h | h | h | h) | (h | h | h | h) | (h | h | h | h))
    · exact Or.inl (Or.inl ⟨_, h, by decide⟩)
    · exact Or.inl (Or.inl ⟨_, h, by decide⟩)
    · exact Or.inl (Or.inl ⟨_, h, by decide⟩)
    · exact Or.inl (Or.inl ⟨_, h, by decide⟩)
    · exact Or.inl (Or.inr ⟨_, h, by decide⟩)
    · exact Or.inl (Or.inr ⟨_, h, by decide⟩)
    · exact Or.inl (Or.inr ⟨_, h, by decide⟩)
    · exact Or.inl (Or.inr ⟨_, h, by decide⟩)
    · exact Or.inr ⟨_, h, by decide⟩
    · exact Or.inr ⟨_, h, by decide⟩
    · exact Or.inr ⟨_, h, by decide⟩
    · exact Or.inr ⟨_, h, by decide⟩

/-- JavaScript whitespace characters are not word characters. -/
theorem spaceNotWord {c : Char} (h : isJsSpace c = true) : isWordChar c = false := by
  simp only [isJsSpace, Bool.or_eq_true, decide_eq_true_eq] at h
  rcases h with ((((rfl | rfl) | rfl) | rfl) | rfl) | rfl <;> decide

/-- JavaScript whitespace characters are not an opening parenthesis. -/
theorem spaceNeParen {c : Char} (h : isJsSpace c = true) : c ≠ '(' := by
  simp only [isJsSpace, Bool.or_eq_true, decide_eq_true_eq] at h
  rcases h with ((((rfl | rfl) | rfl) | rfl) | rfl) | rfl <;> decide

/-- Word characters are not commas. -/
theorem wordNeComma {c : Char} (h : isWordChar c = true) : c ≠ ',' := by
  intro hc; subst hc; simp [isWordChar] at h

/-- Word characters are not colons. -/
theorem wordNeColon {c : Char} (h : isWordChar c = true) : c ≠ ':' := by
  intro hc; subst hc; simp [isWordChar] at h

/-- `testWord` agrees with the specification-side literal whole-word
occurrence predicate for nonempty names made of word characters (for other
names the interpolated text acts as a regex pattern and the two differ). -/
theorem testWord_iff {name text : List Char} (hn : name ≠ [])
    (hw : ∀ c ∈ name, isWordChar c = true) :
    testWord name text = true ↔ WholeWordOccurs name text := by
  rw [testWord, testWordFrom_iff hn hw, WholeWordOccurs]
  constructor
  · rintro ⟨pre, suf, hsp, -, hL, hR⟩; exact ⟨pre, suf, hsp, hL, hR⟩
  · rintro ⟨pre, suf, hsp, hL, hR⟩; exact ⟨pre, suf, hsp, fun _ => rfl, hL, hR⟩

/-! ### Membership and inversion lemmas for extraction and classification -/

theorem noPrev_eq_some {α : Type} {f : List Char → Option (α × List Char)}
    {prev s : List Char} {a : α} {n : Nat} (h : noPrev f prev s = some (a, n)) :
    ∃ r, f s = some (a, r) := by
  simp only [noPrev, Option.map_eq_some'] at h
  obtain ⟨⟨a', r⟩, hf, hp⟩ := h
  have h1 : a' = a := by
    have := congrArg Prod.fst hp
    simpa using this
  exact ⟨r, by rw [hf, h1]⟩

theorem namedExportMatch_name {s nm r : List Char}
    (h : namedExportMatch s = some (nm, r)) : nm ≠ [] ∧ ∀ c ∈ nm, isWordChar c = true := by
  simp only [namedExportMatch, Option.bind_eq_some, Option.pure_def] at h
  obtain ⟨r1, -, r2, -, r3, -, r4, -, hw⟩ := h
  obtain ⟨-, h2, h3, -⟩ := word1_eq_some hw
  exact ⟨h2, h3⟩

theorem defaultNamedMatch_name {s nm r : List Char}
    (h : defaultNamedMatch s = some (nm, r)) : nm ≠ [] ∧ ∀ c ∈ nm, isWordChar c = true := by
  simp only [defaultNamedMatch, Option.bind_eq_some, Option.pure_def] at h
  obtain ⟨r1, -, r2, -, r3, -, r4, -, r5, -, r6, -, hw⟩ := h
  obtain ⟨-, h2, h3, -⟩ := word1_eq_some hw
  exact ⟨h2, h3⟩

theorem mem_extractExports {d : Decl} {content fp : List Char}
    (h : d ∈ extractExports content fp) :
    d.file = fp ∧ (d.type = "named" ∨ d.type = "default") ∧ d.name ≠ [] := by
  rcases List.mem_append.mp h with h12 | h3
  · rcases List.mem_append.mp h12 with h1 | h2
    · obtain ⟨nm, hs, rfl⟩ := List.mem_map.mp h1
      obtain ⟨pre, suf, n, -, hm⟩ := scanAll_mem hs
      obtain ⟨r, hr⟩ := noPrev_eq_some hm
      exact ⟨rfl, Or.inl rfl, (namedExportMatch_name hr).1⟩
    · obtain ⟨inner, -, hd⟩ := List.mem_flatMap.mp h2
      obtain ⟨nm, hnm, rfl⟩ := List.mem_map.mp hd
      obtain ⟨hEL, -⟩ := List.mem_filter.mp hnm
      rw [exportListNames] at hEL
      obtain ⟨-, hbool⟩ := List.mem_filter.mp hEL
      refine ⟨rfl, Or.inl rfl, ?_⟩
      intro hnil
      have hnm0 : nm = [] := hnil
      rw [hnm0] at hbool
      simp at hbool
  · obtain ⟨nm, hs, rfl⟩ := List.mem_map.mp h3
    obtain ⟨pre, suf, n, -, hm⟩ := scanAll_mem hs
    obtain ⟨r, hr⟩ := noPrev_eq_some hm
    exact ⟨rfl, Or.inr rfl, (defaultNamedMatch_name hr).1⟩

theorem mem_extractFunctions {d : Decl} {content fp : List Char}
    (h : d ∈ extractFunctions content fp) :
    d.file = fp ∧ (d.type = "function" ∨ d.type = "arrow") := by
  rcases List.mem_append.mp h with h12 | h3
  · rcases List.mem_append.mp h12 with h1 | h2
    · obtain ⟨nm, -, rfl⟩ := List.mem_map.mp h1
      exact ⟨rfl, Or.inl rfl⟩
    · obtain ⟨nm, -, rfl⟩ := List.mem_map.mp h2
      exact ⟨rfl, Or.inr rfl⟩
  · obtain ⟨nm, -, rfl⟩ := List.mem_map.mp h3
    exact ⟨rfl, Or.inr rfl⟩

/-- A declaration of non-`"function"` type in `extractFunctions` output comes
from one of the two arrow-function scans. -/
theorem mem_extractFunctions_arrow {d : Decl} {content fp : List Char}
    (h : d ∈ extractFunctions content fp) (ht : d.type ≠ "function") :
    ∃ pre suf r, content = pre ++ suf ∧
      (arrowMatch suf = some (d.name, r) ∨ arrowSimpleMatch suf = some (d.name, r)) := by
  rcases List.mem_append.mp h with h12 | h3
  · rcases List.mem_append.mp h12 with h1 | h2
    · obtain ⟨nm, -, rfl⟩ := List.mem_map.mp h1
      exact absurd rfl ht
    · obtain ⟨nm, hs, rfl⟩ := List.mem_map.mp h2
      obtain ⟨pre, suf, n, hsp, hm⟩ := scanAll_mem hs
      obtain ⟨r, hr⟩ := noPrev_eq_some hm
      exact ⟨pre, suf, r, hsp, Or.inl hr⟩
  · obtain ⟨nm, hs, rfl⟩ := List.mem_map.mp h3
    obtain ⟨pre, suf, n, hsp, hm⟩ := scanAll_mem hs
    obtain ⟨r, hr⟩ := noPrev_eq_some hm
    exact ⟨pre, suf, r, hsp, Or.inr hr⟩

theorem mem_allExports {d : Decl} {files : FileSet} (h : d ∈ allExports files) :
    ∃ pc ∈ files, d ∈ extractExports pc.2 pc.1 :=
  List.mem_flatMap.mp h

theorem mem_allFunctions {d : Decl} {eo : Bool} {files : FileSet}
    (h : d ∈ allFunctions eo files) :
    eo = false ∧ ∃ pc ∈ files, d ∈ extractFunctions pc.2 pc.1 := by
  cases eo with
  | true => simp [allFunctions] at h
  | false =>
    rw [allFunctions, if_neg (by simp)] at h
    exact ⟨rfl, List.mem_flatMap.mp h⟩

/-- With pairwise-distinct paths, `lookup` retrieves each member content. -/
theorem lookup_pairwise {files : FileSet} {k v : List Char}
    (hpw : files.Pairwise (fun x y => x.1 ≠ y.1)) (hmem : (k, v) ∈ files) :
    files.lookup k = some v := by
  induction files with
  | nil => simp at hmem
  | cons kv t ih =>
    obtain ⟨hhd, hpw'⟩ := List.pairwise_cons.mp hpw
    rcases List.mem_cons.mp hmem with heq | htl
    · rw [← heq]
      simp [List.lookup]
    · obtain ⟨k', v'⟩ := kv
      have hne : k' ≠ k := by
        have := hhd (k, v) htl
        simpa using this
      rw [List.lookup]
      have : (k == k') = false := by
        simp only [beq_eq_false_iff_ne, ne_eq]
        exact fun hc => hne hc.symm
      rw [this]
      exact ih hpw' htl

/-- Two entries with the same key in a pairwise-distinct file set coincide. -/
theorem pairwiseKeyEq {files : FileSet} {k v1 v2 : List Char}
    (hpw : files.Pairwise (fun x y => x.1 ≠ y.1))
    (h1 : (k, v1) ∈ files) (h2 : (k, v2) ∈ files) : v1 = v2 := by
  have e1 := lookup_pairwise hpw h1
  have e2 := lookup_pairwise hpw h2
  rw [e1] at e2
  exact Option.some.inj e2

theorem mem_unusedFunctions {d : Decl} {eo : Bool} {files : FileSet}
    (h : d ∈ unusedFunctions eo files) :
    eo = false ∧ d ∈ allFunctions false files ∧
      funcIsUnused d files (allExports files) = true := by
  cases eo with
  | true => simp [unusedFunctions] at h
  | false =>
    rw [unusedFunctions, if_neg (by simp)] at h
    obtain ⟨hmem, hchk⟩ := List.mem_filter.mp h
    exact ⟨rfl, hmem, hchk⟩

/-- The numeric core of the per-function check: `usageCount ≤ 0` with the
`null`-match guard amounts to a call count of at most one, and the branch
then requires an empty reference scan. -/
theorem unusedCore {ncall nref : Nat} :
    ((if (if ncall == 0 then (0 : Int) else (ncall : Int) - 1) ≤ 0
        then nref == 0 else false) = true) ↔ (ncall ≤ 1 ∧ nref = 0) := by
  by_cases h0 : ncall = 0
  · subst h0
    norm_num
  · have hb : (ncall == 0) = false := by simpa using h0
    simp only [hb, Bool.false_eq_true, if_false]
    by_cases hle : ((ncall : Int) - 1 ≤ 0)
    · rw [if_pos hle]
      simp only [beq_iff_eq]
      constructor
      · intro h
        refine ⟨?_, h⟩
        omega
      · exact fun h => h.2
    · rw [if_neg hle]
      simp only [Bool.false_eq_true, false_iff]
      rintro ⟨h1, -⟩
      omega

/-- Inversion of the per-function unused check, given the file content. -/
theorem funcIsUnused_iff {d : Decl} {files : FileSet} {exps : List Decl}
    {content : List Char} (hc : files.lookup d.file = some content) :
    funcIsUnused d files exps = true ↔
      ((∀ e ∈ exps, ¬(e.name = d.name ∧ e.file = d.file)) ∧
        countCallSites d.name content ≤ 1 ∧ countRefs d.name content = 0) := by
  unfold funcIsUnused
  rw [hc]
  by_cases hany : exps.any (fun e => e.name == d.name && e.file == d.file) = true
  · rw [if_pos hany]
    simp only [Bool.false_eq_true, false_iff]
    obtain ⟨e, hmem, hpred⟩ := List.any_eq_true.mp hany
    simp only [Bool.and_eq_true, beq_iff_eq] at hpred
    rintro ⟨hno, -⟩
    exact hno e hmem hpred
  · rw [if_neg hany]
    rw [Bool.not_eq_true, List.any_eq_false] at hany
    have hno : ∀ e ∈ exps, ¬(e.name = d.name ∧ e.file = d.file) := by
      intro e hmem hc'
      have := hany e hmem
      simp only [Bool.and_eq_true, beq_iff_eq] at this
      exact this hc'
    constructor
    · intro hrun
      exact ⟨hno, unusedCore.mp hrun⟩
    · rintro ⟨-, hcounts⟩
      exact unusedCore.mpr hcounts

theorem funcIsUnused_noExport {d : Decl} {files : FileSet} {exps : List Decl}
    (h : funcIsUnused d files exps = true) :
    ∀ e ∈ exps, ¬(e.name = d.name ∧ e.file = d.file) := by
  intro e hmem hconj
  have hany : exps.any (fun e => e.name == d.name && e.file == d.file) = true :=
    List.any_eq_true.mpr ⟨e, hmem, by simp [hconj.1, hconj.2]⟩
  unfold funcIsUnused at h
  rw [if_pos hany] at h
  simp at h

theorem usageShare_eq_zero {d : Decl} {pc : List Char × List Char} :
    usageShare d pc = 0 ↔
      (pc.1 = d.file ∨
        ((findImports pc.2).contains d.name = false ∧ testWord d.name pc.2 = false)) := by
  unfold usageShare
  by_cases h : pc.1 = d.file
  · simp [h]
  · rw [if_neg h]
    by_cases h1 : (findImports pc.2).contains d.name = true
    · by_cases h2 : testWord d.name pc.2 = true <;> simp [h, h1, h2]
    · by_cases h2 : testWord d.name pc.2 = true <;> simp [h, h1, h2]

theorem countUsages_eq_zero {d : Decl} {files : FileSet} :
    countUsages d files = 0 ↔
      ∀ pc ∈ files, pc.1 ≠ d.file →
        (findImports pc.2).contains d.name = false ∧ testWord d.name pc.2 = false := by
  unfold countUsages
  rw [natSumZero, List.forall_mem_map]
  constructor
  · intro h pc hmem hne
    rcases usageShare_eq_zero.mp (h pc hmem) with heq | hok
    · exact absurd heq hne
    · exact hok
  · intro h pc hmem
    apply usageShare_eq_zero.mpr
    by_cases hne : pc.1 = d.file
    · exact Or.inl hne
    · exact Or.inr (h pc hmem hne)

theorem mem_unusedExports_iff {d : Decl} {files : FileSet} :
    d ∈ unusedExports files ↔
      d ∈ allExports files ∧ isEntryPoint d.file = false ∧ countUsages d files = 0 := by
  rw [unusedExports, List.mem_filter]
  simp only [Bool.and_eq_true, Bool.not_eq_true', beq_iff_eq]

/-- A literal whole-word occurrence is in particular an infix occurrence. -/
theorem wholeWordOccurs_substring {name text : List Char}
    (h : WholeWordOccurs name text) : name <:+: text := by
  obtain ⟨pre, suf, hsp, -, -⟩ := h
  exact ⟨pre, suf, hsp.symm⟩

/-! ### Claim theorems -/

/-- C1 (amended): for a collected export whose NAME IS A PLAIN IDENTIFIER
(word characters only - which covers every name the named/default regexes
capture, though not every export-list name), and whose file is not an entry
point, the exports pass reports it unused exactly when no other scanned
file has the name in its import set and no other scanned file text has a
whole-word occurrence of it (the declaring file itself being skipped); an
export in an entry-point file is never reported; and the exports pass only
concerns named and default exports.  The identifier restriction is forced:
an export-list name containing a regex metacharacter is interpolated into
the word-boundary regex as a pattern, see `c1_counterexample`. -/
theorem c1_exports_classification :
    (∀ (files : FileSet) (d : Decl),
        d ∈ allExports files →
        (∀ x ∈ d.name, isWordChar x = true) →
        isEntryPoint d.file = false →
          (d ∈ unusedExports files ↔
            ∀ pc ∈ files, pc.1 ≠ d.file →
              (findImports pc.2).contains d.name = false ∧
                ¬WholeWordOccurs d.name pc.2)) ∧
      (∀ (files : FileSet) (d : Decl),
        isEntryPoint d.file = true → d ∉ unusedExports files) ∧
      (∀ (files : FileSet) (d : Decl), d ∈ allExports files →
        d.type = "named" ∨ d.type = "default") := by
  refine ⟨?_, ?_, ?_⟩
  · intro files d hmem hid hentry
    have hname : d.name ≠ [] := by
      obtain ⟨pc, -, hx⟩ := mem_allExports hmem
      exact (mem_extractExports hx).2.2
    rw [mem_unusedExports_iff]
    constructor
    · rintro ⟨-, -, hz⟩ pc hpc hne
      obtain ⟨hc, hw⟩ := countUsages_eq_zero.mp hz pc hpc hne
      refine ⟨hc, ?_⟩
      intro hww
      rw [← testWord_iff hname hid] at hww
      rw [hww] at hw
      exact absurd hw (by simp)
    · intro h
      refine ⟨hmem, hentry, countUsages_eq_zero.mpr ?_⟩
      intro pc hpc hne
      obtain ⟨hc, hw⟩ := h pc hpc hne
      refine ⟨hc, ?_⟩
      by_cases ht : testWord d.name pc.2 = true
      · exact absurd ((testWord_iff hname hid).mp ht) hw
      · simpa using ht
  · intro files d hentry hmem
    obtain ⟨-, he, -⟩ := mem_unusedExports_iff.mp hmem
    rw [hentry] at he
    exact absurd he (by simp)
  · intro files d hmem
    obtain ⟨pc, -, hx⟩ := mem_allExports hmem
    exact (mem_extractExports hx).2.1

/-- Concrete instantiation of `c1_exports_classification`. -/
theorem c1_exports_classification_witness :
    (⟨"foo".toList, "named", "a.js".toList⟩ : Decl) ∈
        unusedExports [("a.js".toList, "export const foo = 1".toList),
          ("b.js".toList, "const x = 2".toList)] ↔
      ∀ pc ∈ [("a.js".toList, "export const foo = 1".toList),
          ("b.js".toList, "const x = 2".toList)],
        pc.1 ≠ ("a.js".toList : List Char) →
          (findImports pc.2).contains "foo".toList = false ∧
            ¬WholeWordOccurs "foo".toList pc.2 :=
  c1_exports_classification.1
    [("a.js".toList, "export const foo = 1".toList),
      ("b.js".toList, "const x = 2".toList)]
    ⟨"foo".toList, "named", "a.js".toList⟩ (by decide) (by decide) (by decide)

/-- C1 counterexample: the export-list declaration `export {x.y}` yields the
name `x.y`; against a second file `xAy = 1` the interpolated regex
`\bx.y\b` matches `xAy` (the dot is a pattern wildcard), so the program
does not flag the export even though no other file contains a literal
whole-word occurrence of the name and no import set contains it - the
claimed equivalence fails as stated. -/
theorem c1_counterexample :
    ¬((⟨"x.y".toList, "named", "a.js".toList⟩ : Decl) ∈
        unusedExports
          [("a.js".toList, "export {x.y}".toList),
            ("b.js".toList, "xAy = 1".toList)] ↔
      ∀ pc ∈ [("a.js".toList, "export {x.y}".toList),
          ("b.js".toList, "xAy = 1".toList)],
        pc.1 ≠ ("a.js".toList : List Char) →
          (findImports pc.2).contains "x.y".toList = false ∧
            ¬WholeWordOccurs "x.y".toList pc.2) := by
  intro h
  have hB : ∀ pc ∈ [(("a.js".toList : List Char), "export {x.y}".toList),
      ("b.js".toList, "xAy = 1".toList)],
      pc.1 ≠ ("a.js".toList : List Char) →
        (findImports pc.2).contains "x.y".toList = false ∧
          ¬WholeWordOccurs "x.y".toList pc.2 := by
    intro pc hpc hne
    rcases List.mem_cons.mp hpc with rfl | hpc2
    · exact absurd rfl hne
    · rcases List.mem_cons.mp hpc2 with rfl | hpc3
      · refine ⟨by decide, ?_⟩
        intro hww
        exact absurd (wholeWordOccurs_substring hww) (by decide)
      · simp at hpc3
  exact absurd (h.mpr hB) (by decide)

/-- C2: extracting each declaration kind from its canonical one-construct
snippet yields exactly the expected declaration - except that the
plain-function exclusion only fires when `function` is immediately preceded
by `export` and whitespace, so `export default function Bar() {}` and
`export async function foo() {}` each yield an additional PlainFunction
declaration, contradicting the claimed exclusion for export-qualified
functions. -/
theorem c2_extraction_per_kind :
    extractExports "export const foo = 1".toList "f.js".toList =
        [⟨"foo".toList, "named", "f.js".toList⟩] ∧
      extractFunctions "export const foo = 1".toList "f.js".toList = [] ∧
      extractFunctions "function baz() {}".toList "f.js".toList =
        [⟨"baz".toList, "function", "f.js".toList⟩] ∧
      extractExports "function baz() {}".toList "f.js".toList = [] ∧
      extractFunctions "const add = (a, b) => a + b".toList "f.js".toList =
        [⟨"add".toList, "arrow", "f.js".toList⟩] ∧
      extractExports "export function foo() {}".toList "f.js".toList =
        [⟨"foo".toList, "named", "f.js".toList⟩] ∧
      extractFunctions "export function foo() {}".toList "f.js".toList = [] ∧
      extractExports "export default function Bar() {}".toList "f.js".toList =
        [⟨"Bar".toList, "default", "f.js".toList⟩] ∧
      extractFunctions "export default function Bar() {}".toList "f.js".toList =
        [⟨"Bar".toList, "function", "f.js".toList⟩] ∧
      extractFunctions "export async function foo() {}".toList "f.js".toList =
        [⟨"foo".toList, "function", "f.js".toList⟩] := by
  decide

/-- C7: a declaration reported by the functions pass shares its (name, file)
pair with no collected export, so no symbol appears in both output lists. -/
theorem c7_no_double_report :
    ∀ (files : FileSet) (eo : Bool) (d : Decl),
      d ∈ unusedFunctions eo files →
        (∀ e ∈ allExports files, ¬(e.name = d.name ∧ e.file = d.file)) ∧
          d ∉ unusedExports files := by
  intro files eo d hmem
  obtain ⟨-, -, hchk⟩ := mem_unusedFunctions hmem
  have hno := funcIsUnused_noExport hchk
  refine ⟨hno, ?_⟩
  intro hue
  rw [unusedExports] at hue
  obtain ⟨hae, -⟩ := List.mem_filter.mp hue
  exact hno d hae ⟨rfl, rfl⟩

/-- Concrete instantiation of `c7_no_double_report`. -/
theorem c7_no_double_report_witness :
    (∀ e ∈ allExports [("a.js".toList, "function foo() {}".toList)],
        ¬(e.name = ("foo".toList : List Char) ∧ e.file = "a.js".toList)) ∧
      (⟨"foo".toList, "function", "a.js".toList⟩ : Decl) ∉
        unusedExports [("a.js".toList, "function foo() {}".toList)] :=
  c7_no_double_report [("a.js".toList, "function foo() {}".toList)] false
    ⟨"foo".toList, "function", "a.js".toList⟩ (by decide)

/-- C8: with `--exports-only` the functions pass is skipped entirely: no
function declarations are even collected, the unused-functions list is
empty, and the persisted report has `totalFunctions` and `unusedFunctions`
null. -/
theorem c8_exports_only_skips_functions :
    ∀ files : FileSet,
      unusedFunctions true files = [] ∧ allFunctions true files = [] ∧
        (runScan true files).totalFunctions = none ∧
        (runScan true files).unusedFunctionsList = none :=
  fun _ => ⟨rfl, rfl, rfl, rfl⟩

/-- C9: extraction and classification are pure functions of the file set and
flags, so two runs over the same input produce the same report, lists and
their order included. -/
theorem c9_two_runs_equal :
    ∀ (exportsOnly : Bool) (files : FileSet),
      runScan exportsOnly files = runScan exportsOnly files ∧
        (runScan exportsOnly files).unusedExportsList = unusedExports files ∧
        (runScan exportsOnly files).unusedFunctionsList =
          (if exportsOnly then none else some (unusedFunctions exportsOnly files)) :=
  fun _ _ => ⟨rfl, rfl, rfl⟩

/-- C10: the entry-point exclusion is a suffix match, not an exact filename
match - `myindex.ts` and `wrapp.ts` count as entry points - and only the
`app` pattern is case-insensitive (`INDEX.TS` and `MAIN.TS` are not entry
points while `sub/APP.TSX` is). -/
theorem c10_entry_point_suffix :
    (∀ p : List Char,
        isEntryPoint p = true ↔
          ("index.js".toList <:+ p ∨ "index.ts".toList <:+ p ∨
              "index.jsx".toList <:+ p ∨ "index.tsx".toList <:+ p) ∨
            ("main.js".toList <:+ p ∨ "main.ts".toList <:+ p ∨
              "main.jsx".toList <:+ p ∨ "main.tsx".toList <:+ p) ∨
            ("app.js".toList <:+ p.map Char.toLower ∨
              "app.ts".toList <:+ p.map Char.toLower ∨
              "app.jsx".toList <:+ p.map Char.toLower ∨
              "app.tsx".toList <:+ p.map Char.toLower)) ∧
      isEntryPoint "myindex.ts".toList = true ∧
      isEntryPoint "wrapp.ts".toList = true ∧
      isEntryPoint "INDEX.TS".toList = false ∧
      isEntryPoint "MAIN.TS".toList = false ∧
      isEntryPoint "sub/APP.TSX".toList = true :=
  ⟨fun _ => isEntryPoint_iff, by decide, by decide, by decide, by decide, by decide⟩

theorem varKw_shape {s r1 : List Char} (h : varKw s = some r1) :
    ∃ pre w, s = pre ++ [w] ++ r1 ∧ isJsSpace w = true ∧
      (∀ c, r1.head? = some c → isJsSpace c = false) := by
  unfold varKw at h
  rw [Option.bind_eq_some] at h
  obtain ⟨t, halt, hws⟩ := h
  obtain ⟨wsp, ht, hwne, hwall, hhead⟩ := ws1_eq_some hws
  have hst : ∃ kw, s = kw ++ t := by
    rcases (Option.orElse_eq_some _ _ _).mp halt with h1 | ⟨-, h23⟩
    · exact ⟨_, dropLit_eq_some.mp h1⟩
    · rcases (Option.orElse_eq_some _ _ _).mp h23 with h2 | ⟨-, h3⟩
      · exact ⟨_, dropLit_eq_some.mp h2⟩
      · exact ⟨_, dropLit_eq_some.mp h3⟩
  obtain ⟨kw, rfl⟩ := hst
  rcases List.eq_nil_or_concat wsp with rfl | ⟨q, b, rfl⟩
  · exact absurd rfl hwne
  · refine ⟨kw ++ q, b, ?_, ?_, hhead⟩
    · rw [ht]
      simp [List.concat_eq_append, List.append_assoc]
    · exact hwall b (by simp [List.concat_eq_append])

theorem arrowHead_shape {s nm r : List Char} (h : arrowHead s = some (nm, r)) :
    ∃ pre w, s = pre ++ [w] ++ (nm ++ r) ∧ isJsSpace w = true ∧ nm ≠ [] := by
  unfold arrowHead at h
  rw [Option.bind_eq_some] at h
  obtain ⟨r1, hv, hw⟩ := h
  obtain ⟨pre, w, rfl, hsp, -⟩ := varKw_shape hv
  obtain ⟨hr1, hne, -, -⟩ := word1_eq_some hw
  refine ⟨pre, w, ?_, hsp, hne⟩
  rw [hr1]

/-- Both arrow matchers begin with the shared head and an `=` after optional
whitespace; a success yields those two stages. -/
theorem arrowChainHead {s nm r : List Char}
    (h : arrowMatch s = some (nm, r) ∨ arrowSimpleMatch s = some (nm, r)) :
    ∃ r2 r3, arrowHead s = some (nm, r2) ∧ expectChar '=' (ws0 r2) = some r3 := by
  rcases h with h | h
  · unfold arrowMatch at h
    rw [Option.bind_eq_some] at h
    obtain ⟨⟨nm', r2⟩, hhead, hrest⟩ := h
    rw [Option.bind_eq_some] at hrest
    obtain ⟨r3, heq, hrest2⟩ := hrest
    have hnm : nm' = nm := by
      rw [Option.bind_eq_some] at hrest2
      obtain ⟨r5, -, hrest3⟩ := hrest2
      rw [Option.bind_eq_some] at hrest3
      obtain ⟨r6, -, hrest4⟩ := hrest3
      rw [Option.map_eq_some'] at hrest4
      obtain ⟨r7, -, hp⟩ := hrest4
      simpa using congrArg Prod.fst hp
    subst hnm
    exact ⟨r2, r3, hhead, heq⟩
  · unfold arrowSimpleMatch at h
    rw [Option.bind_eq_some] at h
    obtain ⟨⟨nm', r2⟩, hhead, hrest⟩ := h
    rw [Option.bind_eq_some] at hrest
    obtain ⟨r3, heq, hrest2⟩ := hrest
    have hnm : nm' = nm := by
      rw [Option.bind_eq_some] at hrest2
      obtain ⟨r5, -, hp⟩ := hrest2
      have := Option.some.inj hp
      simpa using congrArg Prod.fst this
    subst hnm
    exact ⟨r2, r3, hhead, heq⟩

/-- An arrow-function match always leaves the bound name flanked by a
whitespace character on the left and a whitespace or `=` character on the
right, which is exactly a reference-regex match site. -/
theorem arrowGivesRef {s nm r : List Char}
    (h : arrowMatch s = some (nm, r) ∨ arrowSimpleMatch s = some (nm, r)) :
    ∃ pre w c₂ tail, s = pre ++ (w :: (nm ++ c₂ :: tail)) ∧
      refMatch nm (w :: (nm ++ c₂ :: tail)) = some ((), tail) := by
  obtain ⟨r2, r3, hhead, heq⟩ := arrowChainHead h
  obtain ⟨pre0, w, hs, hwsp, hnm⟩ := arrowHead_shape hhead
  obtain ⟨ws2, hr2, hws2⟩ := ws0_decompose r2
  have heq2 : ws0 r2 = '=' :: r3 := expectChar_eq_some heq
  rw [heq2] at hr2
  have hwword : isWordChar w = false := spaceNotWord hwsp
  cases ws2 with
  | nil =>
    simp only [List.nil_append] at hr2
    refine ⟨pre0, w, '=', r3, ?_, ?_⟩
    · rw [hs, hr2]
      simp [List.append_assoc]
    · simp only [refMatch, hwword, Bool.false_eq_true, if_false,
        dropLit_eq_some.mpr (rfl : nm ++ '=' :: r3 = nm ++ '=' :: r3)]
      rw [if_pos (by decide)]
  | cons e ws2' =>
    have hesp : isJsSpace e = true := hws2 e (by simp)
    refine ⟨pre0, w, e, ws2' ++ '=' :: r3, ?_, ?_⟩
    · rw [hs, hr2]
      simp [List.append_assoc]
    · simp only [refMatch, hwword, Bool.false_eq_true, if_false,
        dropLit_eq_some.mpr (rfl : nm ++ e :: (ws2' ++ '=' :: r3) =
          nm ++ e :: (ws2' ++ '=' :: r3))]
      rw [if_pos (by simp [spaceNotWord hesp, bne_iff_ne.mpr (spaceNeParen hesp)])]

/-- C4: an arrow-function declaration is never reported by the functions
pass: every declaration in the unused-functions list is a plain function.
The arrow binding own `const name =` text always satisfies the secondary
reference regex, so the no-reference branch is unreachable for arrows. -/
theorem c4_arrows_never_reported :
    ∀ (files : FileSet) (eo : Bool) (d : Decl),
      files.Pairwise (fun x y => x.1 ≠ y.1) →
      d ∈ unusedFunctions eo files → d.type = "function" := by
  intro files eo d hpw hmem
  obtain ⟨rfl, hall, hchk⟩ := mem_unusedFunctions hmem
  obtain ⟨-, ⟨p1, p2⟩, hpc, hx⟩ := mem_allFunctions hall
  have hfile : d.file = p1 := (mem_extractFunctions hx).1
  by_contra htne
  obtain ⟨pre, suf, r, hsp, hm⟩ := mem_extractFunctions_arrow hx htne
  have hlk : files.lookup d.file = some p2 := by
    rw [hfile]
    exact lookup_pairwise hpw hpc
  obtain ⟨-, -, hrefs⟩ := (funcIsUnused_iff hlk).mp hchk
  unfold countRefs at hrefs
  have hnil : scanAll (noPrev (refMatch d.name)) p2 = [] :=
    List.length_eq_zero.mp hrefs
  obtain ⟨pre1, w, c₂, tail, hsuf, href⟩ := arrowGivesRef hm
  have hsp2 : p2 = pre ++ suf := hsp
  have hsplit : p2 = (pre ++ pre1) ++ (w :: (d.name ++ c₂ :: tail)) := by
    rw [hsp2, hsuf, List.append_assoc]
  have hnp : noPrev (refMatch d.name) (pre ++ pre1).reverse
      (w :: (d.name ++ c₂ :: tail)) =
      some ((), (w :: (d.name ++ c₂ :: tail)).length - tail.length) := by
    unfold noPrev
    rw [href]
    rfl
  exact scanAll_nil hnil (pre ++ pre1) w (d.name ++ c₂ :: tail) hsplit _ _ hnp

/-- Concrete instantiation of `c4_arrows_never_reported`. -/
theorem c4_arrows_never_reported_witness :
    (⟨"foo".toList, "function", "a.js".toList⟩ : Decl).type = "function" :=
  c4_arrows_never_reported [("a.js".toList, "function foo() {}".toList)] false
    ⟨"foo".toList, "function", "a.js".toList⟩ (by simp) (by decide)

/-- The exported-name skip in the functions pass only depends on the
declaring file own exports. -/
theorem anyExport_eq {files : FileSet} {d : Decl} {content : List Char}
    (hpw : files.Pairwise (fun x y => x.1 ≠ y.1))
    (hfc : (d.file, content) ∈ files) :
    (allExports files).any (fun e => e.name == d.name && e.file == d.file) =
      (extractExports content d.file).any
        (fun e => e.name == d.name && e.file == d.file) := by
  rw [Bool.eq_iff_iff]
  simp only [List.any_eq_true]
  constructor
  · rintro ⟨e, hmem, hp⟩
    have hef : e.file = d.file := by
      simp only [Bool.and_eq_true, beq_iff_eq] at hp
      exact hp.2
    obtain ⟨⟨q1, q2⟩, hq, hxq⟩ := mem_allExports hmem
    have heq1 : e.file = q1 := (mem_extractExports hxq).1
    have hq1 : q1 = d.file := by rw [← heq1, hef]
    subst hq1
    have hq2 : q2 = content := pairwiseKeyEq hpw hq hfc
    subst hq2
    exact ⟨e, hxq, hp⟩
  · rintro ⟨e, hmem, hp⟩
    refine ⟨e, ?_, hp⟩
    exact List.mem_flatMap.mpr ⟨(d.file, content), hfc, hmem⟩

/-- The per-function check depends only on the declaring file content. -/
theorem funcIsUnused_local {files₁ files₂ : FileSet} {d : Decl} {content : List Char}
    (hpw₁ : files₁.Pairwise (fun x y => x.1 ≠ y.1))
    (hpw₂ : files₂.Pairwise (fun x y => x.1 ≠ y.1))
    (hf₁ : (d.file, content) ∈ files₁) (hf₂ : (d.file, content) ∈ files₂) :
    funcIsUnused d files₁ (allExports files₁) =
      funcIsUnused d files₂ (allExports files₂) := by
  unfold funcIsUnused
  rw [lookup_pairwise hpw₁ hf₁, lookup_pairwise hpw₂ hf₂,
    anyExport_eq hpw₁ hf₁, anyExport_eq hpw₂ hf₂]

/-- C3: a non-exported plain function is reported exactly when its file
text matches the call regex at most once (the definition site) and the
secondary reference regex not at all; and the verdict only depends on the
declaring file content, never on other files. -/
theorem c3_functions_pass :
    (∀ (files : FileSet) (d : Decl) (content : List Char),
        files.Pairwise (fun x y => x.1 ≠ y.1) →
        d ∈ allFunctions false files →
        (∀ e ∈ allExports files, ¬(e.name = d.name ∧ e.file = d.file)) →
        (d.file, content) ∈ files →
          (d ∈ unusedFunctions false files ↔
            countCallSites d.name content ≤ 1 ∧ countRefs d.name content = 0)) ∧
      (∀ (files₁ files₂ : FileSet) (d : Decl) (content : List Char),
        files₁.Pairwise (fun x y => x.1 ≠ y.1) →
        files₂.Pairwise (fun x y => x.1 ≠ y.1) →
        (d.file, content) ∈ files₁ → (d.file, content) ∈ files₂ →
        d ∈ extractFunctions content d.file →
          (d ∈ unusedFunctions false files₁ ↔ d ∈ unusedFunctions false files₂)) := by
  constructor
  · intro files d content hpw hall hnoexp hfc
    have hlk := lookup_pairwise hpw hfc
    rw [unusedFunctions, if_neg (by simp), List.mem_filter, funcIsUnused_iff hlk]
    constructor
    · rintro ⟨-, -, hc⟩
      exact hc
    · intro hc
      exact ⟨hall, hnoexp, hc⟩
  · intro files₁ files₂ d content hpw₁ hpw₂ hf₁ hf₂ hx
    have hmem₁ : d ∈ allFunctions false files₁ := by
      rw [allFunctions, if_neg (by simp)]
      exact List.mem_flatMap.mpr ⟨(d.file, content), hf₁, hx⟩
    have hmem₂ : d ∈ allFunctions false files₂ := by
      rw [allFunctions, if_neg (by simp)]
      exact List.mem_flatMap.mpr ⟨(d.file, content), hf₂, hx⟩
    rw [unusedFunctions, if_neg (by simp), List.mem_filter,
      unusedFunctions, if_neg (by simp), List.mem_filter,
      funcIsUnused_local hpw₁ hpw₂ hf₁ hf₂]
    simp [hmem₁, hmem₂]

/-- Concrete instantiation of `c3_functions_pass`. -/
theorem c3_functions_pass_witness :
    (⟨"foo".toList, "function", "a.js".toList⟩ : Decl) ∈
        unusedFunctions false [("a.js".toList, "function foo() {}".toList)] ↔
      countCallSites "foo".toList "function foo() {}".toList ≤ 1 ∧
        countRefs "foo".toList "function foo() {}".toList = 0 :=
  c3_functions_pass.1 [("a.js".toList, "function foo() {}".toList)]
    ⟨"foo".toList, "function", "a.js".toList⟩ "function foo() {}".toList
    (by simp) (by decide) (by decide) (by decide)

/-! ### Lemmas on the JavaScript string-splitting helpers -/

theorem dropWhile_id {p : Char → Bool} {s : List Char}
    (h : ∀ c, s.head? = some c → p c = false) : s.dropWhile p = s := by
  cases s with
  | nil => rfl
  | cons c t => rw [List.dropWhile_cons, if_neg (by simp [h c rfl])]

theorem takeWhile_append_of {p : Char → Bool} :
    ∀ {a rest : List Char}, (∀ c ∈ a, p c = true) →
      (∀ c, rest.head? = some c → p c = false) →
      (a ++ rest).takeWhile p = a ∧ (a ++ rest).dropWhile p = rest := by
  intro a
  induction a with
  | nil =>
    intro rest _ hh
    refine ⟨?_, by simpa using dropWhile_id hh⟩
    cases rest with
    | nil => rfl
    | cons c t => rw [List.nil_append, List.takeWhile_cons, if_neg (by simp [hh c rfl])]
  | cons c a' ih =>
    intro rest ha hh
    have hc : p c = true := ha c (by simp)
    obtain ⟨h1, h2⟩ := ih (fun x hx => ha x (by simp [hx])) hh
    constructor
    · rw [List.cons_append, List.takeWhile_cons, if_pos hc, h1]
    · rw [List.cons_append, List.dropWhile_cons, if_pos hc, h2]

theorem trimRight_id {s : List Char}
    (h : ∀ c, s.getLast? = some c → isJsSpace c = false) : trimRight s = s := by
  unfold trimRight
  rw [dropWhile_id (fun c hc => h c (by rwa [← List.head?_reverse]))]
  exact List.reverse_reverse s

theorem trim_id {s : List Char}
    (h1 : ∀ c, s.head? = some c → isJsSpace c = false)
    (h2 : ∀ c, s.getLast? = some c → isJsSpace c = false) : trim s = s := by
  unfold trim trimLeft
  rw [dropWhile_id h1]
  exact trimRight_id h2

theorem idOk_trim {s : List Char} (h : IdOk s) : trim s = s := by
  apply trim_id
  · intro c hc
    exact wordNotSpace (h.2 c (List.mem_of_mem_head? (Option.mem_def.mpr hc)))
  · intro c hc
    have hc' : s.reverse.head? = some c := by rwa [List.head?_reverse]
    have : c ∈ s.reverse := List.mem_of_mem_head? (Option.mem_def.mpr hc')
    exact wordNotSpace (h.2 c (List.mem_reverse.mp this))

theorem trim_append_words {a mid b : List Char} (ha : IdOk a) (hb : IdOk b) :
    trim (a ++ mid ++ b) = a ++ mid ++ b := by
  apply trim_id
  · intro c hc
    obtain ⟨a0, a', rfl⟩ : ∃ a0 a', a = a0 :: a' := by
      cases a with
      | nil => exact absurd rfl ha.1
      | cons x y => exact ⟨x, y, rfl⟩
    simp only [List.cons_append, List.head?_cons, Option.some.injEq] at hc
    rw [← hc]
    exact wordNotSpace (ha.2 a0 (by simp))
  · intro c hc
    obtain ⟨q, e, rfl⟩ : ∃ q e, b = q ++ [e] := by
      rcases List.eq_nil_or_concat b with rfl | ⟨q, e, h⟩
      · exact absurd rfl hb.1
      · exact ⟨q, e, by simpa [List.concat_eq_append] using h⟩
    have hlast : (a ++ mid ++ (q ++ [e])).getLast? = some e := by
      rw [show a ++ mid ++ (q ++ [e]) = (a ++ mid ++ q) ++ [e] by
        simp [List.append_assoc]]
      simp [List.getLast?_append]
    rw [hlast] at hc
    rw [← Option.some.inj hc]
    exact wordNotSpace (hb.2 e (by simp))

theorem splitOnComma_noComma {s : List Char} (h : ∀ c ∈ s, ¬(c = ',')) :
    splitOnComma s = [s] := by
  induction s with
  | nil => rfl
  | cons c t ih =>
    have ht := ih (fun x hx => h x (by simp [hx]))
    simp only [splitOnComma, ht]
    rw [if_neg (h c (by simp))]

theorem splitAsAux_succ_cons (fuel : Nat) (acc : List Char) (c : Char)
    (rest : List Char) :
    splitAsAux (fuel + 1) acc (c :: rest) =
      match splitAsSep (c :: rest) with
      | some r => acc.reverse :: splitAsAux fuel [] r
      | none => splitAsAux fuel (c :: acc) rest := rfl

theorem splitAsAux_nil (fuel : Nat) (acc : List Char) :
    splitAsAux fuel acc [] = [acc.reverse] := by
  cases fuel <;> rfl

theorem splitAsSep_none {c : Char} {rest : List Char} (h : isJsSpace c = false) :
    splitAsSep (c :: rest) = none := by
  simp [splitAsSep, ws1, h]

theorem splitAsAux_words :
    ∀ (w : List Char) (fuel : Nat) (acc rest : List Char),
      (∀ c ∈ w, isJsSpace c = false) →
      splitAsAux (w.length + fuel) acc (w ++ rest) =
        splitAsAux fuel (w.reverse ++ acc) rest := by
  intro w
  induction w with
  | nil => intro fuel acc rest _; simp
  | cons c w' ih =>
    intro fuel acc rest h
    have hc : isJsSpace c = false := h c (by simp)
    have hstep : (c :: w').length + fuel = (w'.length + fuel) + 1 := by
      simp only [List.length_cons]
      omega
    rw [hstep, List.cons_append, splitAsAux_succ_cons]
    simp only [splitAsSep_none hc]
    rw [ih fuel (c :: acc) rest (fun x hx => h x (by simp [hx]))]
    simp [List.reverse_cons, List.append_assoc]

theorem splitAsAux_words_all {w : List Char} {fuel : Nat} {acc : List Char}
    (h : ∀ c ∈ w, isJsSpace c = false) :
    splitAsAux (w.length + fuel) acc w = [acc.reverse ++ w] := by
  have hw := splitAsAux_words w fuel acc [] h
  rw [List.append_nil] at hw
  rw [hw, splitAsAux_nil]
  simp

theorem sepAtAs {b : List Char} (hb : ∀ c, b.head? = some c → isJsSpace c = false) :
    splitAsSep (' ' :: 'a' :: 's' :: ' ' :: b) = some b := by
  have h1 : ws1 (' ' :: 'a' :: 's' :: ' ' :: b) = some ('a' :: 's' :: ' ' :: b) := by
    simp only [ws1, if_pos (by decide : isJsSpace ' ' = true)]
    rw [List.dropWhile_cons, if_neg (by decide)]
  have h2 : dropLit "as".toList ('a' :: 's' :: ' ' :: b) = some (' ' :: b) := by
    simp [dropLit]
  have h3 : ws1 (' ' :: b) = some b := by
    simp only [ws1, if_pos (by decide : isJsSpace ' ' = true)]
    rw [dropWhile_id hb]
  unfold splitAsSep
  rw [h1, Option.some_bind, h2, Option.some_bind, h3]

theorem splitAs_template {a b : List Char} (ha : IdOk a) (hb : IdOk b) :
    splitAs (a ++ " as ".toList ++ b) = [a, b] := by
  have hawsp : ∀ c ∈ a, isJsSpace c = false := fun c hc => wordNotSpace (ha.2 c hc)
  have hbwsp : ∀ c ∈ b, isJsSpace c = false := fun c hc => wordNotSpace (hb.2 c hc)
  have hbhead : ∀ c, b.head? = some c → isJsSpace c = false := fun c hc =>
    hbwsp c (List.mem_of_mem_head? (Option.mem_def.mpr hc))
  unfold splitAs
  rw [List.append_assoc]
  have hlen : (a ++ (" as ".toList ++ b)).length = a.length + (3 + b.length + 1) := by
    simp only [List.length_append]
    simp
    omega
  rw [hlen, splitAsAux_words a (3 + b.length + 1) [] (" as ".toList ++ b) hawsp,
    show (" as ".toList ++ b) = ' ' :: 'a' :: 's' :: ' ' :: b from rfl,
    splitAsAux_succ_cons]
  simp only [sepAtAs hbhead]
  rw [List.append_nil, List.reverse_reverse,
    show 3 + b.length = b.length + 3 from by omega,
    splitAsAux_words_all hbwsp]
  simp

/-- A character of the literal `" as "` is not a comma. -/
theorem memAsNeComma {c : Char} (h : c ∈ (" as ".toList : List Char)) : ¬(c = ',') := by
  have : c = ' ' ∨ c = 'a' ∨ c = 's' ∨ c = ' ' := by simpa using h
  rcases this with rfl | rfl | rfl | rfl <;> decide

/-- A character of the literal `": "` is not a comma. -/
theorem memColonNeComma {c : Char} (h : c ∈ (": ".toList : List Char)) : ¬(c = ',') := by
  have : c = ':' ∨ c = ' ' := by simpa using h
  rcases this with rfl | rfl <;> decide

theorem exportListNames_as {a b : List Char} (ha : IdOk a) (hb : IdOk b) :
    exportListNames (a ++ " as ".toList ++ b) = [a] := by
  unfold exportListNames
  have hnc : ∀ c ∈ a ++ " as ".toList ++ b, ¬(c = ',') := by
    intro c hc
    rcases List.mem_append.mp hc with h1 | h2
    · rcases List.mem_append.mp h1 with hA | hm
      · exact wordNeComma (ha.2 c hA)
      · exact memAsNeComma hm
    · exact wordNeComma (hb.2 c h2)
  rw [splitOnComma_noComma hnc]
  simp only [List.map_cons, List.map_nil]
  rw [trim_append_words ha hb, splitAs_template ha hb]
  have hae : a.isEmpty = false := by
    cases a with
    | nil => exact absurd rfl ha.1
    | cons x y => rfl
  simp only [List.headD]
  rw [idOk_trim ha]
  simp [List.filter_cons, hae]

theorem importListNames_as {a b : List Char} (ha : IdOk a) (hb : IdOk b) :
    importListNames (a ++ " as ".toList ++ b) = [b] := by
  unfold importListNames
  have hnc : ∀ c ∈ a ++ " as ".toList ++ b, ¬(c = ',') := by
    intro c hc
    rcases List.mem_append.mp hc with h1 | h2
    · rcases List.mem_append.mp h1 with hA | hm
      · exact wordNeComma (ha.2 c hA)
      · exact memAsNeComma hm
    · exact wordNeComma (hb.2 c h2)
  rw [splitOnComma_noComma hnc]
  simp only [List.map_cons, List.map_nil]
  rw [trim_append_words ha hb, splitAs_template ha hb]
  have hbe : b.isEmpty = false := by
    cases b with
    | nil => exact absurd rfl hb.1
    | cons x y => rfl
  rw [show (([a, b] : List (List Char)).getLastD []) = b from rfl]
  rw [idOk_trim hb]
  simp [List.filter_cons, hbe]

theorem requireListNames_colon {a c : List Char} (ha : IdOk a) (hc : IdOk c) :
    requireListNames (a ++ ": ".toList ++ c) = [a] := by
  unfold requireListNames
  have hnc : ∀ x ∈ a ++ ": ".toList ++ c, ¬(x = ',') := by
    intro x hx
    rcases List.mem_append.mp hx with h1 | h2
    · rcases List.mem_append.mp h1 with hA | hm
      · exact wordNeComma (ha.2 x hA)
      · exact memColonNeComma hm
    · exact wordNeComma (hc.2 x h2)
  rw [splitOnComma_noComma hnc]
  simp only [List.map_cons, List.map_nil]
  rw [trim_append_words ha hc]
  have hch : colonHead (a ++ ": ".toList ++ c) = a := by
    unfold colonHead
    rw [if_pos (by
      apply List.elem_iff.mpr
      simp)]
    have htw : (a ++ ": ".toList ++ c).takeWhile (fun x => x != ':') = a := by
      rw [List.append_assoc]
      refine (takeWhile_append_of ?_ ?_).1
      · intro x hx
        simpa using wordNeColon (ha.2 x hx)
      · intro x hx
        simp only [show (": ".toList ++ c) = ':' :: (' ' :: c) from rfl,
          List.head?_cons, Option.some.injEq] at hx
        rw [← hx]
        decide
    rw [htw]
    apply trimRight_id
    intro x hx
    have hx' : a.reverse.head? = some x := by rwa [List.head?_reverse]
    have : x ∈ a.reverse := List.mem_of_mem_head? (Option.mem_def.mpr hx')
    exact wordNotSpace (ha.2 x (List.mem_reverse.mp this))
  rw [hch]
  have hae : a.isEmpty = false := by
    cases a with
    | nil => exact absurd rfl ha.1
    | cons x y => rfl
  simp [List.filter_cons, hae]

/-- C5: an export-list entry with an `as` rename records the ORIGINAL
(pre-rename) identifier - `export { x as y }` records `x` and never `y` -
one name is recorded per listed entry, and the literal keyword `default`
in an export list is never recorded. -/
theorem c5_export_list_original_names :
    (∀ a b : List Char, IdOk a → IdOk b →
        exportListNames (a ++ " as ".toList ++ b) = [a]) ∧
      extractExports "export { x as y }".toList "f.js".toList =
        [⟨"x".toList, "named", "f.js".toList⟩] ∧
      extractExports "export { default }".toList "f.js".toList = [] ∧
      extractExports "export { a, b as c }".toList "f.js".toList =
        [⟨"a".toList, "named", "f.js".toList⟩, ⟨"b".toList, "named", "f.js".toList⟩] ∧
      extractExports "export { default, x }".toList "f.js".toList =
        [⟨"x".toList, "named", "f.js".toList⟩] :=
  ⟨fun _ _ ha hb => exportListNames_as ha hb, by decide, by decide, by decide, by decide⟩

/-- Concrete instantiation of `c5_export_list_original_names`. -/
theorem c5_export_list_original_names_witness :
    exportListNames ("x".toList ++ " as ".toList ++ "y".toList) = ["x".toList] :=
  c5_export_list_original_names.1 "x".toList "y".toList ⟨by decide, by decide⟩
    ⟨by decide, by decide⟩

/-- C6 counterexample: for `const { a: c } = require('m')` the import set
records the property name `a` and not the local alias `c`, refuting the
claimed local-alias rule for destructured require renames. -/
theorem c6_require_rename_counterexample :
    (findImports "const { a: c } = require('m')".toList).contains "c".toList = false ∧
      (findImports "const { a: c } = require('m')".toList).contains "a".toList = true := by
  decide

/-- C6 (amended): named import lists record the LOCAL alias - `import { a as
b }` yields `b`, never `a` - while destructured require bindings with a `:`
rename record the PROPERTY name before the colon (`{ a: c }` yields `a`,
not the local alias `c`). -/
theorem c6_import_alias_rules :
    (∀ a b : List Char, IdOk a → IdOk b →
        importListNames (a ++ " as ".toList ++ b) = [b]) ∧
      (∀ a c : List Char, IdOk a → IdOk c →
        requireListNames (a ++ ": ".toList ++ c) = [a]) ∧
      (findImports "import { a as b } from 'm'".toList).contains "b".toList = true ∧
      (findImports "import { a as b } from 'm'".toList).contains "a".toList = false ∧
      (findImports "const { a: c } = require('m')".toList).contains "a".toList = true ∧
      (findImports "const { a: c } = require('m')".toList).contains "c".toList = false :=
  ⟨fun _ _ ha hb => importListNames_as ha hb,
    fun _ _ ha hc => requireListNames_colon ha hc,
    by decide, by decide, by decide, by decide⟩

/-- Concrete instantiation of `c6_import_alias_rules`. -/
theorem c6_import_alias_rules_witness :
    importListNames ("x".toList ++ " as ".toList ++ "y".toList) = ["y".toList] ∧
      requireListNames ("p".toList ++ ": ".toList ++ "q".toList) = ["p".toList] :=
  ⟨c6_import_alias_rules.1 "x".toList "y".toList ⟨by decide, by decide⟩
      ⟨by decide, by decide⟩,
    c6_import_alias_rules.2.1 "p".toList "q".toList ⟨by decide, by decide⟩
      ⟨by decide, by decide⟩⟩

end DeadCode
